import Mathlib

/-!
Verification development for the ngc-learn core components.

Each section shallowly embeds one source module over exact rational
arithmetic (`ℚ`), with pseudorandom draws made explicit parameters:

* `LIF` — `components/neurons/spiking/LIFCell.py` (`run_cell`,
  `advance_state`'s spike-key plumbing, `update_theta`, `update_times`);
* `Bernoulli` — `components/input_encoders/bernoulliCell.py`
  (`_sample_constrained_bernoulli`);
* `ExpK` — `components/other/expKernel.py` (`apply_kernel`,
  `_advance_state`);
* `RPE` — `components/neurons/graded/rewardErrorCell.py` (`_evolve`);
* `ENode` — `engine/nodes/enode.py` together with
  `engine/cables/scable.py` (tick-accumulation protocol,
  `check_correctness`, the unclamped `step` core, `compute_precision`'s
  covariance rebuild and `calc_update`).

Vectors of per-unit quantities are functions `Fin n → ℚ`; elementwise
array operations become pointwise definitions.  The exponential map of
the kernel is an abstract parameter `expf : ℚ → ℚ` since it is only ever
applied pointwise by the code.
-/

namespace LIF

/-- Output bundle of one `run_cell` invocation: committed voltage `v`,
committed (possibly winner-arbitrated) spikes `s`, the unaltered raw
spikes `raw_s`, and the refractory counters `rfr`. -/
structure CellOut (n : ℕ) where
  v : Fin n → ℚ
  s : Fin n → ℚ
  raw_s : Fin n → ℚ
  rfr : Fin n → ℚ

/-- Embedding of `LIFCell.run_cell`.  `skey` carries, when present, the
index drawn by `random.choice(skey, s.shape[1], p=squeeze(s))`; `none`
means no key was supplied and the single-winner post-processing block is
skipped, exactly as in the source.  `R_m` is accepted (and, as in the
source, unused by the dynamics). -/
def run_cell (n : ℕ) (dt : ℚ) (j v : Fin n → ℚ) (v_thr : ℚ) (v_theta : Fin n → ℚ)
    (rfr : Fin n → ℚ) (skey : Option (Fin n)) (tau_m R_m v_rest v_reset refract_T : ℚ) :
    CellOut n :=
  let _v_thr : Fin n → ℚ := fun i => v_theta i + v_thr
  let mask : Fin n → ℚ := fun i => if refract_T ≤ rfr i then 1 else 0
  let _v : Fin n → ℚ := fun i => v i + (v_rest - v i) * (dt / tau_m) + j i * mask i
  let s : Fin n → ℚ := fun i => if _v_thr i < _v i then 1 else 0
  let _rfr : Fin n → ℚ := fun i => (rfr i + dt) * (1 - s i)
  let _v2 : Fin n → ℚ := fun i => _v i * (1 - s i) + s i * v_reset
  let sel : Fin n → ℚ :=
    match skey with
    | none => s
    | some c =>
      let m_switch : ℚ := if 0 < Finset.univ.sum s then 1 else 0
      let rS : Fin n → ℚ := fun i => if i = c then 1 else 0
      fun i => s i * (1 - m_switch) + rS i * m_switch
  ⟨_v2, sel, s, _rfr⟩

/-- Embedding of the `skey` plumbing of `LIFCell.advance_state`
(lines 190–193): `skey` starts as `None` and is replaced by a fresh
subkey only inside the `if self.one_spike is False:` branch.  `drawn`
stands for the index that `random.choice` would produce from that
subkey. -/
def advance_skey (n : ℕ) (one_spike : Bool) (drawn : Fin n) : Option (Fin n) :=
  if one_spike then none else some drawn

/-- Embedding of `LIFCell.update_theta` (homeostatic threshold), with
the exponential decay factor `exp(-dt/tau_theta)` abstracted as the
parameter `theta_decay`, since the code only multiplies by it. -/
def update_theta (n : ℕ) (theta_decay : ℚ) (v_theta s : Fin n → ℚ)
    (theta_plus : ℚ) : Fin n → ℚ :=
  fun i => v_theta i * theta_decay + s i * theta_plus

/-- Embedding of `update_times` (time-of-last-spike trace). -/
def update_times (n : ℕ) (t : ℚ) (s tols : Fin n → ℚ) : Fin n → ℚ :=
  fun i => (1 - s i) * tols i + s i * t

end LIF

namespace ExpK

/-- Embedding of `jnp.roll(tf, shift=-1, axis=0)` on the window buffer (single unit,
batch 1, so the buffer is a list of recorded times): every slot moves
down one position and the first slot wraps around to the end. -/
def roll (l : List ℚ) : List ℚ := l.drop 1 ++ l.take 1

/-- One masked kernel term of `apply_kernel`: a recorded time `tfv`
contributes `expf (-(t - tfv)/tau_w)` when strictly positive
(`mask = jnp.greater(_tf, 0.)`) and `0` otherwise.  `expf` abstracts the
pointwise exponential map, which the source only ever applies
elementwise. -/
def kterm (expf : ℚ → ℚ) (t tau_w tfv : ℚ) : ℚ :=
  expf (-(t - tfv) / tau_w) * (if 0 < tfv then 1 else 0)

/-- Embedding of `apply_kernel`: write `s * t` into the last slot
(`idx_sub = len - 1`), roll the buffer by `-1`, slice
`krn_start : krn_end`, and sum the masked kernel terms over the
slice.  As in the source, the `win_len` argument is received but the
body indexes by the buffer's own length. -/
def apply_kernel (expf : ℚ → ℚ) (tf_curr : List ℚ) (s t tau_w : ℚ)
    (win_len krn_start krn_end : ℕ) : List ℚ × ℚ :=
  let idx_sub := tf_curr.length - 1
  let tf := roll (tf_curr.set idx_sub (s * t))
  let _tf := (tf.drop krn_start).take (krn_end - krn_start)
  let epsp := (_tf.map (kterm expf t tau_w)).sum
  (tf, epsp)

/-- Embedding of `ExpKernel._advance_state`: one advance step calls
`apply_kernel` with `krn_start = 0` and `krn_end = win_len - 1`, where
`win_len` is the length of the spike-time window buffer
(`win_len = int(nu/dt) + 1` at construction). -/
def advance (expf : ℚ → ℚ) (tau_w : ℚ) (win_len : ℕ) (t s : ℚ) (tf : List ℚ) :
    ℚ × List ℚ :=
  let r := apply_kernel expf tf s t tau_w win_len 0 (win_len - 1)
  (r.2, r.1)

/-- Trajectory of `ExpKernel._advance_state` from the reset (all-zero)
buffer of length `L`: a single spike is presented at time `t0` on step
`0` and silence afterwards, with steps `dt` apart (step `k` happens at
time `t0 + dt*k`).  Returns the step's EPSP output and the post-step
buffer. -/
def spikeThenSilent (expf : ℚ → ℚ) (tau_w dt t0 : ℚ) (L : ℕ) : ℕ → ℚ × List ℚ
  | 0 => advance expf tau_w L t0 1 (List.replicate L 0)
  | k + 1 =>
    advance expf tau_w L (t0 + dt * ((k : ℚ) + 1)) 0 (spikeThenSilent expf tau_w dt t0 L k).2

/-- The same trajectory with no spike at all (`s = 0` on every step):
every recorded time stays `0`. -/
def allSilent (expf : ℚ → ℚ) (tau_w dt t0 : ℚ) (L : ℕ) : ℕ → ℚ × List ℚ
  | 0 => advance expf tau_w L t0 0 (List.replicate L 0)
  | k + 1 =>
    advance expf tau_w L (t0 + dt * ((k : ℚ) + 1)) 0 (allSilent expf tau_w dt t0 L k).2

end ExpK

namespace Bernoulli

/-- Per-element firing probability of
`_sample_constrained_bernoulli`: `pspike = data * (dt/1000.) * fmax`. -/
def pspike (data dt fmax : ℚ) : ℚ := data * (dt / 1000) * fmax

/-- Embedding of `_sample_constrained_bernoulli` for one element:
`eps` is the uniform draw from `[0, 1)`
(`random.uniform(dkey, ..., minval=0., maxval=1.)`); the element spikes
(`1`) iff `eps < pspike`. -/
def sample_constrained_bernoulli (eps data dt fmax : ℚ) : ℚ :=
  if eps < pspike data dt fmax then 1 else 0

/-- The exact length of the subinterval of `[0, 1)` on which
`sample_constrained_bernoulli` fires (see `spikeProb_char`): the
per-step firing probability of one element under the uniform draw. -/
def spikeProb (data dt fmax : ℚ) : ℚ := min 1 (max 0 (pspike data dt fmax))

/-- Expected spikes per second: the per-step firing probability times
the number of `dt`-millisecond steps in one second. -/
def expectedRate (data dt fmax : ℚ) : ℚ := spikeProb data dt fmax * (1000 / dt)

end Bernoulli

namespace RPE

/-- State of `RewardErrorCell` (scalar instance: one unit, batch 1):
the six compartments of the cell. -/
structure RPESt where
  mu : ℚ
  rpe : ℚ
  reward : ℚ
  accum_reward : ℚ
  n_ep_steps : ℚ
  Ns : ℚ

/-- Embedding of `RewardErrorCell._evolve`: accumulate the reward,
increment the (local) step count, compute the episodic mean reward
`r = accum_reward / n_ep_steps`, update the EMA predictor, and compute
the RPE from the updated predictor.  Returns `(mu, rpe, accum_reward)` —
exactly the triple the resolver commits. -/
def evolve_calc (ema_window_len n_ep_steps mu accum_reward reward : ℚ) : ℚ × ℚ × ℚ :=
  let accum_reward := accum_reward + reward
  let n_ep_steps := n_ep_steps + 1
  let r := accum_reward / n_ep_steps
  let mu := (1 - 1 / ema_window_len) * mu + (1 / ema_window_len) * r
  let rpe := r - mu
  (mu, rpe, accum_reward)

/-- The `@resolver(_evolve)` commit (`RewardErrorCell.evolve`): only
`mu`, `rpe` and `accum_reward` are written back; `reward`,
`n_ep_steps` and `Ns` are untouched. -/
def evolve (ema_window_len : ℚ) (st : RPESt) : RPESt :=
  let res := evolve_calc ema_window_len st.n_ep_steps st.mu st.accum_reward st.reward
  { st with mu := res.1, rpe := res.2.1, accum_reward := res.2.2 }

/-- Embedding of `RewardErrorCell._reset`: every compartment returns
to zero. -/
def reset : RPESt := ⟨0, 0, 0, 0, 0, 0⟩

end RPE

namespace ENode

/-- Embedding of `SCable` (`engine/cables/scable.py`): a simple cable
carries a destination variable name (`out_var`) and a scalar
coefficient.  Destination variable names are abstracted to a type `V`
with decidable equality. -/
structure SCable (V : Type) where
  out_var : V
  coeff : ℚ

/-- Embedding of `SCable.propagate`: the value extracted from the source node times
the cable coefficient. -/
def SCable.propagate {V : Type} (c : SCable V) (inp_value : ℚ) : ℚ :=
  inp_value * c.coeff

/-- Embedding of `ENode.check_correctness`: the source walks all
incoming cables, flags any destination variable other than `pred_mu`
or `pred_targ`, and finally flags an incoming-edge count different
from two; the returned flag is the conjunction of the two checks.  The
two fixed destination names are parameters `pred_mu` and `pred_targ`
of type `V`. -/
def check_correctness {V : Type} [DecidableEq V] (pred_mu pred_targ : V)
    (dests : List V) : Bool :=
  (dests.all fun d => decide (d = pred_mu) || decide (d = pred_targ)) &&
    (dests.length == 2)

/-- Per-step accumulation state of a graph node: the current value of
each destination variable (`none` models a `stat` entry that is
`None`/absent) and its tick counter. -/
structure NodeSt (V : Type) where
  stat : V → Option ℚ
  tick : V → ℕ

/-- Embedding of the per-cable body of `ENode.step` (lines 98–110): the
propagated value `dz` is assigned to the cable's destination variable
if that variable's tick is zero and accumulated into it otherwise, and
the tick is incremented.  (When `tick > 0` the current value was
necessarily written earlier in the same step, so it is present;
`Option.getD` supplies the unreachable default.) -/
def writeEdge {V : Type} [DecidableEq V] (st : NodeSt V) (dest : V) (dz : ℚ) : NodeSt V :=
  let var_j : ℚ := if 0 < st.tick dest then (st.stat dest).getD 0 + dz else dz
  { stat := fun x => if x = dest then some var_j else st.stat x
    tick := fun x => if x = dest then st.tick x + 1 else st.tick x }

/-- The edge loop of `ENode.step`, folded over the incoming cables,
each paired with the value extracted from its source node. -/
def runEdges {V : Type} [DecidableEq V] : NodeSt V → List (SCable V × ℚ) → NodeSt V
  | st, [] => st
  | st, e :: rest => runEdges (writeEdge st e.1.out_var (e.1.propagate e.2)) rest

/-- Modelled from the spec: `build_tick` is defined in
`engine/nodes/node.py`, which is not among the sources; per the spec
("Ticks reset to zero at the start of every step (`build_tick`)") it
resets every tick counter to zero.  `ENode.step` calls it as its last
action and the constructor calls it once, so ticks are zero at the
start of every step. -/
def build_tick {V : Type} (st : NodeSt V) : NodeSt V :=
  { st with tick := fun _ => 0 }

/-- Number of incoming cables whose destination is `v`. -/
def destCount {V : Type} [DecidableEq V] (edges : List (SCable V × ℚ)) (v : V) : ℕ :=
  (edges.filter fun e => decide (e.1.out_var = v)).length

/-- Sum of the propagated values of the cables whose destination is
`v`. -/
def destSum {V : Type} [DecidableEq V] (edges : List (SCable V × ℚ)) (v : V) : ℚ :=
  ((edges.filter fun e => decide (e.1.out_var = v)).map fun e => e.1.propagate e.2).sum

/-- The fatal conditions of `ENode.step`'s unclamped core: the two
`sys.exit(1)` calls for a missing `pred_mu`/`pred_targ`, and the
`sys.exit(1)` for an unimplemented `error_type`. -/
inductive FatalErr where
  | missing_pred_mu
  | missing_pred_targ
  | unimplemented_error_type

/-- The `error_type` configuration: `"mse"` is implemented, every
other value hits the fatal else-branch. -/
inductive ErrType where
  | mse
  | other

/-- The quantities the unclamped `ENode.step` core computes and stores
(scalar instance: `dim = 1`, batch 1): `dz`, `z`, the local loss `L`,
and `phi(z)`. -/
structure StepOut where
  dz : ℚ
  z : ℚ
  L : ℚ
  phi_z : ℚ

/-- The pre-check mask application of `ENode.step`: when a mask is
present it multiplies the value elementwise, and a `None` value stays
`None`. -/
def maskOpt (bmask : Option ℚ) (x : Option ℚ) : Option ℚ :=
  match bmask, x with
  | some m, some p => some (p * m)
  | _, p => p

/-- Embedding of the unclamped core of `ENode.step`
(`is_clamped = False`, `skip_core_calc = False`), scalar instance:
`pred_mu0`/`pred_targ0` are the accumulated per-variable values after
the edge loop (`none` when never written); the optional mask
premultiplies them; a missing input or an unimplemented `error_type`
terminates (`sys.exit(1)`, modelled as `Except.error`); otherwise
`dz = pred_targ - pred_mu`, the loss and scalings are applied in
source order, the optional precision multiplies `z`, the activation
`fx` produces `phi(z)`, and the optional mask postmultiplies the
exposed quantities. -/
def step_core (fx : ℚ → ℚ) (et : ErrType) (ex_scale : ℚ)
    (Ws Ns bmask Prec : Option ℚ) (pred_mu0 pred_targ0 : Option ℚ) :
    Except FatalErr StepOut :=
  match maskOpt bmask pred_mu0 with
  | none => Except.error FatalErr.missing_pred_mu
  | some pred_mu =>
    match maskOpt bmask pred_targ0 with
    | none => Except.error FatalErr.missing_pred_targ
    | some pred_targ =>
      match et with
      | ErrType.other => Except.error FatalErr.unimplemented_error_type
      | ErrType.mse =>
        let dz := pred_targ - pred_mu
        let z := dz
        let e := z
        let L_batch := e * e
        let L_batch := match Ws with | some w => L_batch * w | none => L_batch
        let z := match Ws with | some w => z * w | none => z
        let L := L_batch
        let z := z * ex_scale
        let L := match Ns with | some nn => L * (1 / nn) | none => L
        let z := match Ns with | some nn => z * (1 / nn) | none => z
        let z := match Prec with | some p => z * p | none => z
        let phi_z := fx z
        let dz := match bmask with | some m => dz * m | none => dz
        let z := match bmask with | some m => z * m | none => z
        let phi_z := match bmask with | some m => phi_z * m | none => phi_z
        Except.ok (StepOut.mk dz z L phi_z)

/-- Whether the step terminated the process rather than producing
outputs. -/
def isFatal (r : Except FatalErr StepOut) : Bool :=
  match r with
  | Except.error _ => true
  | Except.ok _ => false

/-- Stability factor of `ENode.compute_precision`: `eps = 0.00025`. -/
def eps : ℚ := 25 / 100000

/-- Embedding of the covariance rebuild of `ENode.compute_precision`:
`vari = max(1, Sigma) ⊙ I` (diagonal floored at `1`),
`cov = vari + Sigma ⊙ (1 - I)` (off-diagonal preserved), then
`cov = cov + eps` — the scalar `eps` is broadcast onto every entry,
not only the diagonal. -/
def rebuild_cov {n : ℕ} (Sigma : Matrix (Fin n) (Fin n) ℚ) : Matrix (Fin n) (Fin n) ℚ :=
  Matrix.of fun i j =>
    max 1 (Sigma i j) * (if i = j then 1 else 0) +
      Sigma i j * (1 - if i = j then 1 else 0) + eps

/-- Success of `tf.linalg.cholesky` on (the real interpretation of)
`A`: `A = R Rᵀ` for a real lower-triangular `R`.  (The factor of a
successful decomposition also has positive diagonal; refuting this
weaker form refutes success a fortiori.) -/
def HasCholesky {n : ℕ} (A : Matrix (Fin n) (Fin n) ℚ) : Prop :=
  ∃ R : Matrix (Fin n) (Fin n) ℝ,
    (∀ i j : Fin n, (i : ℕ) < (j : ℕ) → R i j = 0) ∧
    A.map (fun q => (q : ℝ)) = R * R.transpose

/-- Embedding of `ENode.calc_update` with the default flags
(`update_radius = -1`, so no norm clipping; `use_mod_factor = False`):
the returned delta is `-(eᵀ e - Prec) * 0.5`, where `e` is the batch
row `phi(z)`. -/
def calc_update {n : ℕ} (Prec : Matrix (Fin n) (Fin n) ℚ) (e : Matrix (Fin 1) (Fin n) ℚ) :
    Matrix (Fin n) (Fin n) ℚ :=
  -((1 / 2 : ℚ) • (e.transpose * e - Prec))

end ENode

namespace LIF

/-- Claim C1 (code bug witness evaluation).  With the single-winner
constraint enabled (`one_spike = True`), `advance_state` keeps
`skey = None` — the key is produced only inside the
`if self.one_spike is False:` branch, inverted with respect to the
comment on that very line and to the `one_spike` docstring — so the
winner-selection block of `run_cell` is skipped.  Concretely: two units,
both driven over threshold (`dt = 1`, `tau_m = 100`, `j = 100`,
`v = v_rest = -65`, `v_thr = -52`, `v_theta = 0`,
`rfr = refract_T = 5`, `v_reset = 60`), with `one_spike = true`; the
committed spike vector is `(1, 1)`, i.e. it has two nonzero entries,
contradicting the claim that at most one spike is retained. -/
theorem C1_one_spike_ignored :
    advance_skey 2 true 0 = none ∧
    (run_cell 2 1 (fun _ => 100) (fun _ => -65) (-52) (fun _ => 0) (fun _ => 5)
      (advance_skey 2 true 0) 100 1 (-65) 60 5).s 0 = 1 ∧
    (run_cell 2 1 (fun _ => 100) (fun _ => -65) (-52) (fun _ => 0) (fun _ => 5)
      (advance_skey 2 true 0) 100 1 (-65) 60 5).s 1 = 1 := by
  refine ⟨rfl, ?_, ?_⟩ <;> norm_num [run_cell, advance_skey]

/-- Claim C3 (code bug witness evaluation).  With the source's default
parameters (`v_reset = 60`, `v_thr = -52`, `v_rest = -65`,
`refract_T = 5`; here `dt = 1`, `tau_m = 100`, constant suprathreshold
current `j = 100`): the unit spikes, its refractory counter resets to
`0`, but the committed voltage `v_reset = 60` is already above the
threshold `-52`, so the unit spikes again on the very next step while
`rfr = 0 < refract_T` — the refractory mask only gates the input
current, not the threshold crossing.  (The source comment
`# -60. # -65. # mV` shows the reset potential was meant to be negative,
below threshold, in which case the claimed invariant holds.) -/
theorem C3_spike_during_refractory :
    (run_cell 1 1 (fun _ => 100) (fun _ => -65) (-52) (fun _ => 0) (fun _ => 5)
      none 100 1 (-65) 60 5).s 0 = 1 ∧
    (run_cell 1 1 (fun _ => 100) (fun _ => -65) (-52) (fun _ => 0) (fun _ => 5)
      none 100 1 (-65) 60 5).rfr 0 = 0 ∧
    (0 : ℚ) < 5 ∧
    (run_cell 1 1 (fun _ => 100)
        (run_cell 1 1 (fun _ => 100) (fun _ => -65) (-52) (fun _ => 0) (fun _ => 5)
          none 100 1 (-65) 60 5).v (-52) (fun _ => 0)
        (run_cell 1 1 (fun _ => 100) (fun _ => -65) (-52) (fun _ => 0) (fun _ => 5)
          none 100 1 (-65) 60 5).rfr
      none 100 1 (-65) 60 5).s 0 = 1 := by
  norm_num [run_cell]

/-- Field characterization of `run_cell` with no spike key: the
committed spike is the raw threshold comparison. -/
theorem run_cell_s_none (n : ℕ) (dt : ℚ) (j v : Fin n → ℚ) (v_thr : ℚ)
    (v_theta rfr : Fin n → ℚ) (tau_m R_m v_rest v_reset refract_T : ℚ) (i : Fin n) :
    (run_cell n dt j v v_thr v_theta rfr none tau_m R_m v_rest v_reset refract_T).s i =
      if v_theta i + v_thr <
          v i + (v_rest - v i) * (dt / tau_m) + j i * (if refract_T ≤ rfr i then 1 else 0)
        then 1 else 0 := rfl

/-- Field characterization of `run_cell`: refractory counter update. -/
theorem run_cell_rfr_eq (n : ℕ) (dt : ℚ) (j v : Fin n → ℚ) (v_thr : ℚ)
    (v_theta rfr : Fin n → ℚ) (skey : Option (Fin n))
    (tau_m R_m v_rest v_reset refract_T : ℚ) (i : Fin n) :
    (run_cell n dt j v v_thr v_theta rfr skey tau_m R_m v_rest v_reset refract_T).rfr i =
      (rfr i + dt) *
        (1 - (run_cell n dt j v v_thr v_theta rfr skey
          tau_m R_m v_rest v_reset refract_T).raw_s i) := rfl

/-- Field characterization of `run_cell`: hyperpolarized voltage. -/
theorem run_cell_v_eq (n : ℕ) (dt : ℚ) (j v : Fin n → ℚ) (v_thr : ℚ)
    (v_theta rfr : Fin n → ℚ) (skey : Option (Fin n))
    (tau_m R_m v_rest v_reset refract_T : ℚ) (i : Fin n) :
    (run_cell n dt j v v_thr v_theta rfr skey tau_m R_m v_rest v_reset refract_T).v i =
      (v i + (v_rest - v i) * (dt / tau_m) + j i * (if refract_T ≤ rfr i then 1 else 0)) *
        (1 - (run_cell n dt j v v_thr v_theta rfr skey
          tau_m R_m v_rest v_reset refract_T).raw_s i) +
      (run_cell n dt j v v_thr v_theta rfr skey
        tau_m R_m v_rest v_reset refract_T).raw_s i * v_reset := rfl

/-- With no spike key the raw and committed spike vectors coincide. -/
theorem run_cell_raw_s_eq_s_none (n : ℕ) (dt : ℚ) (j v : Fin n → ℚ) (v_thr : ℚ)
    (v_theta rfr : Fin n → ℚ) (tau_m R_m v_rest v_reset refract_T : ℚ) :
    (run_cell n dt j v v_thr v_theta rfr none tau_m R_m v_rest v_reset refract_T).raw_s =
      (run_cell n dt j v v_thr v_theta rfr none tau_m R_m v_rest v_reset refract_T).s := rfl

/-- Claim C8: for every LIF advance step (single-spike selection off, as
in the default `one_spike = True` path where `skey = None`), the new
state satisfies exactly: `mask = 1` iff `rfr ≥ refract_T`;
`v' = v + (v_rest - v)·(dt/tau_m) + j·mask`; `spike = 1` iff
`v' > v_thr + v_theta` (and spike is binary); `rfr' = (rfr + dt)·(1 - spike)`;
committed voltage `= v'·(1 - spike) + spike·v_reset`. -/
theorem C8_step_equations (n : ℕ) (dt v_thr tau_m R_m v_rest v_reset refract_T : ℚ)
    (j v v_theta rfr : Fin n → ℚ) (i : Fin n) :
    ((if refract_T ≤ rfr i then (1 : ℚ) else 0) = 1 ↔ refract_T ≤ rfr i) ∧
    ((run_cell n dt j v v_thr v_theta rfr none tau_m R_m v_rest v_reset refract_T).s i = 1 ↔
      v_thr + v_theta i <
        v i + (v_rest - v i) * (dt / tau_m) + j i * (if refract_T ≤ rfr i then 1 else 0)) ∧
    ((run_cell n dt j v v_thr v_theta rfr none tau_m R_m v_rest v_reset refract_T).s i = 1 ∨
      (run_cell n dt j v v_thr v_theta rfr none tau_m R_m v_rest v_reset refract_T).s i = 0) ∧
    (run_cell n dt j v v_thr v_theta rfr none tau_m R_m v_rest v_reset refract_T).rfr i =
      (rfr i + dt) *
        (1 - (run_cell n dt j v v_thr v_theta rfr none tau_m R_m v_rest v_reset refract_T).s i) ∧
    (run_cell n dt j v v_thr v_theta rfr none tau_m R_m v_rest v_reset refract_T).v i =
      (v i + (v_rest - v i) * (dt / tau_m) + j i * (if refract_T ≤ rfr i then 1 else 0)) *
        (1 - (run_cell n dt j v v_thr v_theta rfr none tau_m R_m v_rest v_reset refract_T).s i) +
      (run_cell n dt j v v_thr v_theta rfr none tau_m R_m v_rest v_reset refract_T).s i * v_reset := by
  rw [run_cell_rfr_eq, run_cell_v_eq, run_cell_raw_s_eq_s_none, run_cell_s_none,
    add_comm v_thr (v_theta i)]
  refine ⟨by by_cases h : refract_T ≤ rfr i <;> simp [h], ?_, ?_, rfl, rfl⟩ <;>
    by_cases h : v_theta i + v_thr <
        v i + (v_rest - v i) * (dt / tau_m) + j i * (if refract_T ≤ rfr i then 1 else 0)
  · rw [if_pos h]
    exact ⟨fun _ => h, fun _ => rfl⟩
  · rw [if_neg h]
    exact ⟨fun h0 => absurd h0 (by norm_num), fun hc => absurd hc h⟩
  · rw [if_pos h]
    exact Or.inl rfl
  · rw [if_neg h]
    exact Or.inr rfl

end LIF

namespace ExpK

/-- Setting the element just past `xs` in `xs ++ [c]`. -/
theorem set_last (xs : List ℚ) (c y : ℚ) : (xs ++ [c]).set xs.length y = xs ++ [y] := by
  induction xs with
  | nil => rfl
  | cons a xs ih => simp [List.set, ih]

/-- Rolling a nonempty buffer moves its head to the end. -/
theorem roll_cons (x : ℚ) (xs : List ℚ) : roll (x :: xs) = xs ++ [x] := rfl

/-- Taking the length-of-`xs` prefix of `xs ++ [c]` returns `xs`. -/
theorem take_len (xs : List ℚ) (c : ℚ) : (xs ++ [c]).take xs.length = xs :=
  List.take_left xs [c]

/-- Variant of `take_len` with the index given by an arbitrary proof of equality. -/
theorem take_len' (xs : List ℚ) (c : ℚ) (n : ℕ) (h : n = xs.length) :
    (xs ++ [c]).take n = xs := by
  subst h
  exact take_len xs c

/-- Zero-time slots never contribute to the kernel sum. -/
theorem ksum_replicate (expf : ℚ → ℚ) (t tau_w : ℚ) (m : ℕ) :
    ((List.replicate m (0:ℚ)).map (kterm expf t tau_w)).sum = 0 := by
  simp [List.map_replicate, List.sum_replicate, kterm]

/-- Rolling the all-zero buffer leaves it unchanged. -/
theorem roll_replicate (n : ℕ) : roll (List.replicate n (0:ℚ)) = List.replicate n 0 := by
  cases n with
  | zero => rfl
  | succ n =>
    have h1 : List.replicate (n + 1) (0:ℚ) = 0 :: List.replicate n 0 := List.replicate_succ ..
    rw [h1, roll_cons, ← List.replicate_succ' n, h1]

/-- A silent advance step on a buffer whose single positive record `t0`
sits strictly inside the slice: the record shifts down one slot and the
EPSP output is exactly one kernel term. -/
theorem advance_silent_mid (expf : ℚ → ℚ) (tau_w t0 : ℚ) (b k : ℕ) (t : ℚ) (ht0 : 0 < t0) :
    advance expf tau_w (b + k + 3) t 0
        (List.replicate (b + 1) 0 ++ t0 :: List.replicate (k + 1) 0) =
      (expf (-(t - t0) / tau_w), List.replicate b 0 ++ t0 :: List.replicate (k + 2) 0) := by
  have hx : List.replicate (b + 1) (0:ℚ) ++ t0 :: List.replicate (k + 1) 0 =
      (List.replicate (b + 1) 0 ++ t0 :: List.replicate k 0) ++ [(0:ℚ)] := by
    rw [List.replicate_succ' k]
    simp
  have hlen : ((List.replicate (b + 1) (0:ℚ) ++ t0 :: List.replicate k 0)).length = b + k + 2 := by
    simp
    omega
  have hset : (List.replicate (b + 1) (0:ℚ) ++ t0 :: List.replicate (k + 1) 0).set
      ((List.replicate (b + 1) (0:ℚ) ++ t0 :: List.replicate (k + 1) 0).length - 1) ((0:ℚ) * t) =
      List.replicate (b + 1) (0:ℚ) ++ t0 :: List.replicate (k + 1) 0 := by
    rw [hx]
    rw [show ((List.replicate (b + 1) (0:ℚ) ++ t0 :: List.replicate k 0) ++ [(0:ℚ)]).length - 1 =
        (List.replicate (b + 1) (0:ℚ) ++ t0 :: List.replicate k 0).length from by simp]
    rw [set_last, zero_mul]
  have hcons : List.replicate (b + 1) (0:ℚ) ++ t0 :: List.replicate (k + 1) 0 =
      0 :: (List.replicate b 0 ++ t0 :: List.replicate (k + 1) 0) := by
    rw [List.replicate_succ]
    simp
  have hroll : roll (List.replicate (b + 1) (0:ℚ) ++ t0 :: List.replicate (k + 1) 0) =
      List.replicate b 0 ++ t0 :: List.replicate (k + 2) 0 := by
    rw [hcons, roll_cons]
    rw [List.replicate_succ' (k + 1)]
    simp
  have hnew : List.replicate b (0:ℚ) ++ t0 :: List.replicate (k + 2) 0 =
      (List.replicate b 0 ++ t0 :: List.replicate (k + 1) 0) ++ [(0:ℚ)] := by
    rw [List.replicate_succ' (k + 1)]
    simp
  have hlen2 : ((List.replicate b (0:ℚ) ++ t0 :: List.replicate (k + 1) 0)).length = b + k + 2 := by
    simp
    omega
  unfold advance apply_kernel
  simp only []
  rw [hset, hroll]
  refine Prod.ext ?_ rfl
  show ((((List.replicate b (0:ℚ) ++ t0 :: List.replicate (k + 2) 0).drop 0).take
      (b + k + 3 - 1 - 0)).map (kterm expf t tau_w)).sum = expf (-(t - t0) / tau_w)
  rw [List.drop_zero, show b + k + 3 - 1 - 0 = b + k + 2 from by omega, hnew, ← hlen2, take_len]
  rw [List.map_append, List.sum_append, ksum_replicate, List.map_cons, List.sum_cons,
    ksum_replicate, kterm, if_pos ht0]
  ring

/-- The spike step: from the all-zero (reset) buffer, presenting a
spike (`s = 1`) at time `t0 > 0` records `t0` in slot `L - 2` and
already outputs its kernel term at the spike step itself. -/
theorem advance_spike_first (expf : ℚ → ℚ) (tau_w t0 : ℚ) (m : ℕ) (ht0 : 0 < t0) :
    advance expf tau_w (m + 2) t0 1 (List.replicate (m + 2) 0) =
      (expf (-(t0 - t0) / tau_w), List.replicate m 0 ++ t0 :: List.replicate 1 0) := by
  have hset : (List.replicate (m + 2) (0:ℚ)).set ((List.replicate (m + 2) (0:ℚ)).length - 1)
      ((1:ℚ) * t0) = List.replicate (m + 1) (0:ℚ) ++ [t0] := by
    rw [List.replicate_succ' (m + 1)]
    rw [show ((List.replicate (m + 1) (0:ℚ) ++ [(0:ℚ)]).length - 1) =
        (List.replicate (m + 1) (0:ℚ)).length from by simp]
    rw [set_last, one_mul]
  have hroll : roll (List.replicate (m + 1) (0:ℚ) ++ [t0]) =
      List.replicate m 0 ++ t0 :: List.replicate 1 0 := by
    rw [List.replicate_succ]
    rw [show ((0:ℚ) :: List.replicate m 0) ++ [t0] = 0 :: (List.replicate m 0 ++ [t0]) from by simp]
    rw [roll_cons]
    simp
  have hnew : List.replicate m (0:ℚ) ++ t0 :: List.replicate 1 0 =
      (List.replicate m 0 ++ [t0]) ++ [(0:ℚ)] := by simp
  unfold advance apply_kernel
  simp only []
  rw [hset, hroll]
  refine Prod.ext ?_ rfl
  show ((((List.replicate m (0:ℚ) ++ t0 :: List.replicate 1 0).drop 0).take
      (m + 2 - 1 - 0)).map (kterm expf t0 tau_w)).sum = expf (-(t0 - t0) / tau_w)
  rw [List.drop_zero, show m + 2 - 1 - 0 = m + 1 from by omega, hnew,
    take_len' _ _ _ (by simp)]
  rw [List.map_append, List.sum_append, ksum_replicate, List.map_cons, List.sum_cons,
    List.map_nil, List.sum_nil, kterm, if_pos ht0]
  ring

/-- A silent step on a buffer whose record has reached slot `0`: the
record wraps to the last slot, which lies outside the
`0 : win_len - 1` slice, so the output drops to `0`. -/
theorem advance_silent_last (expf : ℚ → ℚ) (tau_w t0 : ℚ) (k : ℕ) (t : ℚ) :
    advance expf tau_w (k + 2) t 0 (t0 :: List.replicate (k + 1) 0) =
      (0, List.replicate (k + 1) 0 ++ [t0]) := by
  have hset : (t0 :: List.replicate (k + 1) (0:ℚ)).set
      ((t0 :: List.replicate (k + 1) (0:ℚ)).length - 1) ((0:ℚ) * t) =
      t0 :: List.replicate (k + 1) 0 := by
    rw [show t0 :: List.replicate (k + 1) (0:ℚ) = (t0 :: List.replicate k 0) ++ [(0:ℚ)] from by
      rw [List.replicate_succ' k]; simp]
    rw [show (((t0 :: List.replicate k (0:ℚ)) ++ [(0:ℚ)]).length - 1) =
        (t0 :: List.replicate k (0:ℚ)).length from by simp]
    rw [set_last, zero_mul]
  unfold advance apply_kernel
  simp only []
  rw [hset, roll_cons]
  refine Prod.ext ?_ rfl
  show ((((List.replicate (k + 1) (0:ℚ) ++ [t0]).drop 0).take
      (k + 2 - 1 - 0)).map (kterm expf t tau_w)).sum = 0
  rw [List.drop_zero, show k + 2 - 1 - 0 = k + 1 from by omega,
    take_len' _ _ _ (by simp), ksum_replicate]

/-- A silent step on a buffer whose record sits in the (excluded) last
slot: the record is overwritten by the new `s * t = 0` entry and the
buffer returns to all-zero; the output is `0`. -/
theorem advance_silent_out (expf : ℚ → ℚ) (tau_w t0 : ℚ) (k : ℕ) (t : ℚ) :
    advance expf tau_w (k + 2) t 0 (List.replicate (k + 1) 0 ++ [t0]) =
      (0, List.replicate (k + 2) 0) := by
  have hset : (List.replicate (k + 1) (0:ℚ) ++ [t0]).set
      ((List.replicate (k + 1) (0:ℚ) ++ [t0]).length - 1) ((0:ℚ) * t) =
      List.replicate (k + 2) 0 := by
    rw [show ((List.replicate (k + 1) (0:ℚ) ++ [t0]).length - 1) =
        (List.replicate (k + 1) (0:ℚ)).length from by simp]
    rw [set_last, zero_mul, ← List.replicate_succ' (k + 1)]
  unfold advance apply_kernel
  simp only []
  rw [hset, roll_replicate]
  refine Prod.ext ?_ rfl
  show ((((List.replicate (k + 2) (0:ℚ)).drop 0).take (k + 2 - 1 - 0)).map
      (kterm expf t tau_w)).sum = 0
  rw [List.drop_zero, List.take_replicate, ksum_replicate]

/-- A silent step on the all-zero buffer keeps it all-zero and outputs
`0`: a recorded time of exactly zero never contributes. -/
theorem advance_silent_zero (expf : ℚ → ℚ) (tau_w : ℚ) (L : ℕ) (t : ℚ) :
    advance expf tau_w L t 0 (List.replicate L 0) = (0, List.replicate L 0) := by
  have hsetr : ∀ (n i : ℕ), (List.replicate n (0:ℚ)).set i 0 = List.replicate n 0 := by
    intro n
    induction n with
    | zero => intro i; rfl
    | succ n ih =>
      intro i
      cases i with
      | zero => simp [List.replicate_succ, List.set]
      | succ i => simp [List.replicate_succ, List.set, ih]
  unfold advance apply_kernel
  simp only []
  rw [zero_mul, hsetr, roll_replicate]
  refine Prod.ext ?_ rfl
  show ((((List.replicate L (0:ℚ)).drop 0).take (L - 1 - 0)).map (kterm expf t tau_w)).sum = 0
  rw [List.drop_zero, List.take_replicate, ksum_replicate]

/-- While `k ≤ win_len - 2` the single record stays inside the slice:
the buffer holds `t0` at slot `win_len - 2 - k` and the output is one
exact kernel term. -/
theorem stS_char (expf : ℚ → ℚ) (tau_w dt t0 : ℚ) (m k : ℕ) (ht0 : 0 < t0) (hk : k ≤ m) :
    spikeThenSilent expf tau_w dt t0 (m + 2) k =
      (expf (-(dt * k) / tau_w),
        List.replicate (m - k) 0 ++ t0 :: List.replicate (k + 1) 0) := by
  induction k with
  | zero =>
    rw [show spikeThenSilent expf tau_w dt t0 (m + 2) 0 =
      advance expf tau_w (m + 2) t0 1 (List.replicate (m + 2) 0) from rfl]
    rw [advance_spike_first expf tau_w t0 m ht0]
    refine Prod.ext ?_ ?_
    · show expf (-(t0 - t0) / tau_w) = expf (-(dt * ((0:ℕ) : ℚ)) / tau_w)
      exact congrArg expf (by push_cast; ring)
    · simp
  | succ k ih =>
    have hk' : k ≤ m := Nat.le_of_succ_le hk
    obtain ⟨b, hb⟩ : ∃ b, m - k = b + 1 := ⟨m - k - 1, by omega⟩
    have hb2 : m - (k + 1) = b := by omega
    have hm : m + 2 = b + k + 3 := by omega
    rw [show spikeThenSilent expf tau_w dt t0 (m + 2) (k + 1) =
      advance expf tau_w (m + 2) (t0 + dt * ((k : ℚ) + 1)) 0
        (spikeThenSilent expf tau_w dt t0 (m + 2) k).2 from rfl]
    rw [ih hk', hb2, hb, hm]
    rw [advance_silent_mid expf tau_w t0 b k (t0 + dt * ((k : ℚ) + 1)) ht0]
    refine Prod.ext ?_ ?_
    · show expf (-((t0 + dt * ((k : ℚ) + 1)) - t0) / tau_w) = expf (-(dt * (((k:ℕ) + 1 : ℕ) : ℚ)) / tau_w)
      exact congrArg expf (by push_cast; ring)
    · show List.replicate b (0:ℚ) ++ t0 :: List.replicate (k + 2) 0 =
        List.replicate b 0 ++ t0 :: List.replicate (k + 1 + 1) 0
      norm_num

/-- At step `win_len - 1` the record has wrapped into the excluded last
slot: output `0`. -/
theorem stS_last (expf : ℚ → ℚ) (tau_w dt t0 : ℚ) (m : ℕ) (ht0 : 0 < t0) :
    spikeThenSilent expf tau_w dt t0 (m + 2) (m + 1) =
      (0, List.replicate (m + 1) 0 ++ [t0]) := by
  rw [show spikeThenSilent expf tau_w dt t0 (m + 2) (m + 1) =
    advance expf tau_w (m + 2) (t0 + dt * ((m : ℚ) + 1)) 0
      (spikeThenSilent expf tau_w dt t0 (m + 2) m).2 from rfl]
  rw [stS_char expf tau_w dt t0 m m ht0 le_rfl]
  rw [show (m - m) = 0 from by omega]
  rw [show List.replicate 0 (0:ℚ) ++ t0 :: List.replicate (m + 1) 0 =
    t0 :: List.replicate (m + 1) 0 from by simp]
  exact advance_silent_last expf tau_w t0 m (t0 + dt * ((m : ℚ) + 1))

/-- From step `win_len` on, the record has been overwritten: the buffer
is all-zero and the output stays `0`. -/
theorem stS_dead (expf : ℚ → ℚ) (tau_w dt t0 : ℚ) (m k : ℕ) (ht0 : 0 < t0)
    (hk : m + 2 ≤ k) :
    spikeThenSilent expf tau_w dt t0 (m + 2) k = (0, List.replicate (m + 2) 0) := by
  induction k, hk using Nat.le_induction with
  | base =>
    rw [show spikeThenSilent expf tau_w dt t0 (m + 2) (m + 2) =
      advance expf tau_w (m + 2) (t0 + dt * (((m + 1 : ℕ) : ℚ) + 1)) 0
        (spikeThenSilent expf tau_w dt t0 (m + 2) (m + 1)).2 from rfl]
    rw [stS_last expf tau_w dt t0 m ht0]
    exact advance_silent_out expf tau_w t0 m _
  | succ k hk ih =>
    rw [show spikeThenSilent expf tau_w dt t0 (m + 2) (k + 1) =
      advance expf tau_w (m + 2) (t0 + dt * ((k : ℚ) + 1)) 0
        (spikeThenSilent expf tau_w dt t0 (m + 2) k).2 from rfl]
    rw [ih]
    exact advance_silent_zero expf tau_w (m + 2) _

/-- With no spike ever presented, all records are zero and the output
is `0` at every step: the zero-initialized default is excluded by the
mask. -/
theorem allSilent_char (expf : ℚ → ℚ) (tau_w dt t0 : ℚ) (L k : ℕ) :
    allSilent expf tau_w dt t0 L k = (0, List.replicate L 0) := by
  induction k with
  | zero =>
    rw [show allSilent expf tau_w dt t0 L 0 =
      advance expf tau_w L t0 0 (List.replicate L 0) from rfl]
    exact advance_silent_zero expf tau_w L t0
  | succ k ih =>
    rw [show allSilent expf tau_w dt t0 L (k + 1) =
      advance expf tau_w L (t0 + dt * ((k : ℚ) + 1)) 0 (allSilent expf tau_w dt t0 L k).2 from rfl]
    rw [ih]
    exact advance_silent_zero expf tau_w L _

/-- Claim C6: for the exponential synaptic kernel with window length
`win_len = floor(nu/dt) + 1 = L ≥ 2`, a single isolated spike recorded
at time `t0 > 0` produces, at every query step `t = t0 + dt*k` while
the record remains inside the window (`k ≤ L - 2`), an EPSP output of
exactly `expf (-(t - t0)/tau_w)`; the output is `0` once the record
leaves the window (`k ≥ L - 1`); and a recorded time of exactly zero
never contributes (the all-silent run outputs `0` at every step). -/
theorem C6_exp_kernel_round_trip (expf : ℚ → ℚ) (tau_w dt t0 : ℚ) (L k : ℕ)
    (hL : 2 ≤ L) (ht0 : 0 < t0) :
    (k ≤ L - 2 →
      (spikeThenSilent expf tau_w dt t0 L k).1 = expf (-((t0 + dt * k) - t0) / tau_w)) ∧
    (L - 1 ≤ k → (spikeThenSilent expf tau_w dt t0 L k).1 = 0) ∧
    (allSilent expf tau_w dt t0 L k).1 = 0 := by
  obtain ⟨m, rfl⟩ : ∃ m, L = m + 2 := ⟨L - 2, by omega⟩
  refine ⟨?_, ?_, by rw [allSilent_char]⟩
  · intro hk
    have hk' : k ≤ m := by omega
    rw [stS_char expf tau_w dt t0 m k ht0 hk']
    exact congrArg expf (by ring)
  · intro hk
    have hk' : m + 1 ≤ k := by omega
    rcases Nat.eq_or_lt_of_le hk' with h | h
    · rw [← h, stS_last expf tau_w dt t0 m ht0]
    · rw [stS_dead expf tau_w dt t0 m k ht0 (by omega)]

/-- Witness for `C6_exp_kernel_round_trip`: window length `3`, spike at
`t0 = 1`, `dt = 1`, `tau_w = 1`, `expf = (· + 5)`, queried one step
after the spike: the output is `expf (-((1 + 1·1) - 1)/1) = 4`. -/
theorem C6_witness : (spikeThenSilent (fun x => x + 5) 1 1 1 3 1).1 = 4 := by
  have h := (C6_exp_kernel_round_trip (fun x => x + 5) 1 1 1 3 1 (by norm_num) (by norm_num)).1
    (by norm_num)
  rw [h]
  norm_num

end ExpK

namespace Bernoulli

/-- Lemma tying `spikeProb` to the sampler's firing event: a uniform
draw `eps ∈ [0, 1)` produces a spike iff `eps < spikeProb`. -/
theorem spikeProb_char (eps data dt fmax : ℚ) (h0 : 0 ≤ eps) (h1 : eps < 1) :
    sample_constrained_bernoulli eps data dt fmax = 1 ↔ eps < spikeProb data dt fmax := by
  unfold sample_constrained_bernoulli spikeProb
  by_cases h : eps < pspike data dt fmax
  · rw [if_pos h]
    simp only [lt_min_iff, lt_max_iff]
    exact ⟨fun _ => ⟨h1, Or.inr h⟩, fun _ => trivial⟩
  · rw [if_neg h]
    constructor
    · intro h0'
      exact absurd h0' (by norm_num)
    · intro hc
      exfalso
      rcases lt_min_iff.mp hc with ⟨_, hmax⟩
      rcases lt_max_iff.mp hmax with hlt | hp
      · linarith
      · exact h hp

/-- Claim C4 fails for raw inputs above `1`: at `data = 2`, `dt = 1`,
`fmax = 100` the per-step firing probability is `1/5`, strictly above
the cap `fmax * dt/1000 = 1/10` implied by the claim (a draw of `0.15`
still fires), and the expected spike rate is `200 Hz > fmax = 100 Hz`. -/
theorem C4_rate_exceeds_fmax :
    sample_constrained_bernoulli (15/100) 2 1 100 = 1 ∧
    (100 : ℚ) * (1 / 1000) < 15/100 ∧
    spikeProb 2 1 100 = 1/5 ∧
    expectedRate 2 1 100 = 200 ∧
    (100 : ℚ) < expectedRate 2 1 100 := by
  norm_num [sample_constrained_bernoulli, spikeProb, expectedRate, pspike, min_def, max_def]

/-- Claim C4, amended: for any uniform draw `eps ∈ [0, 1)` an element
spikes iff `eps < pspike = data * (dt/1000) * fmax`; and the expected
spike rate is bounded by `fmax` provided the raw input lies in
`[0, 1]` — not for arbitrarily large raw inputs. -/
theorem C4_spike_iff_and_rate_bound (eps data dt fmax : ℚ) (h0 : 0 ≤ eps) (h1 : eps < 1) :
    (sample_constrained_bernoulli eps data dt fmax = 1 ↔ eps < pspike data dt fmax) ∧
    (0 ≤ data → data ≤ 1 → 0 < dt → 0 ≤ fmax → expectedRate data dt fmax ≤ fmax) := by
  constructor
  · unfold sample_constrained_bernoulli
    by_cases h : eps < pspike data dt fmax
    · rw [if_pos h]
      exact ⟨fun _ => h, fun _ => rfl⟩
    · rw [if_neg h]
      exact ⟨fun h0' => absurd h0' (by norm_num), fun hc => absurd hc h⟩
  · intro hd0 hd1 hdt hf
    unfold expectedRate spikeProb pspike
    have hp : (0:ℚ) ≤ data * (dt / 1000) * fmax := by positivity
    rw [max_eq_right hp]
    have hrate : (0:ℚ) ≤ 1000 / dt := by positivity
    have hmin : min 1 (data * (dt / 1000) * fmax) ≤ data * (dt / 1000) * fmax :=
      min_le_right 1 _
    have h2 : min 1 (data * (dt / 1000) * fmax) * (1000 / dt) ≤
        data * (dt / 1000) * fmax * (1000 / dt) :=
      mul_le_mul_of_nonneg_right hmin hrate
    have h3 : data * (dt / 1000) * fmax * (1000 / dt) = data * fmax := by
      field_simp
      ring
    rw [h3] at h2
    have h4 : data * fmax ≤ 1 * fmax := mul_le_mul_of_nonneg_right hd1 hf
    rw [one_mul] at h4
    linarith

/-- Witness for `C4_spike_iff_and_rate_bound` at `eps = 1/100`,
`data = 1/2`, `dt = 1`, `fmax = 100`. -/
theorem C4_witness :
    sample_constrained_bernoulli (1/100) (1/2) 1 100 = 1 ∧ expectedRate (1/2) 1 100 ≤ 100 := by
  have h := C4_spike_iff_and_rate_bound (1/100) (1/2) 1 100 (by norm_num) (by norm_num)
  exact ⟨h.1.mpr (by norm_num [pspike]), h.2 (by norm_num) (by norm_num) (by norm_num) (by norm_num)⟩

end Bernoulli

namespace RPE

/-- Claim C10: `evolve` commits only `mu`, `rpe` and `accum_reward`;
the `n_ep_steps`, `reward` and `Ns` compartments are left unchanged,
even though the update internally divides by the incremented count
`n_ep_steps + 1` (visible in the committed `mu` and `rpe`), which
equals `1` right after `reset`. -/
theorem C10_evolve_frame (w : ℚ) (st : RPESt) :
    (evolve w st).n_ep_steps = st.n_ep_steps ∧
    (evolve w st).reward = st.reward ∧
    (evolve w st).Ns = st.Ns ∧
    (evolve w st).mu =
      (1 - 1 / w) * st.mu +
        (1 / w) * ((st.accum_reward + st.reward) / (st.n_ep_steps + 1)) ∧
    (evolve w st).rpe =
      (st.accum_reward + st.reward) / (st.n_ep_steps + 1) - (evolve w st).mu ∧
    (evolve w st).accum_reward = st.accum_reward + st.reward ∧
    reset.n_ep_steps + 1 = 1 := by
  refine ⟨rfl, rfl, rfl, rfl, rfl, rfl, by norm_num [reset]⟩

end RPE

namespace ENode

/-- Claim C5 counterexample: with destination names modelled as `ℕ`
(`pred_mu = 0`, `pred_targ = 1`), the wiring `[pred_mu, pred_mu]` —
two cables both writing the prediction variable and none writing the
target — passes `check_correctness`, although it is not "one edge
targeting the prediction name and one targeting the target name". -/
theorem C5_double_pred_mu_passes :
    check_correctness (0 : ℕ) 1 [0, 0] = true ∧ ¬ ((1 : ℕ) ∈ [0, 0]) := by
  decide

/-- Claim C5, amended: `check_correctness` succeeds exactly when there
are two incoming cables and every destination name is `pred_mu` or
`pred_targ`; it does not require one edge per name. -/
theorem C5_check_correctness_iff {V : Type} [DecidableEq V] (pred_mu pred_targ : V)
    (dests : List V) :
    check_correctness pred_mu pred_targ dests = true ↔
      dests.length = 2 ∧ ∀ d ∈ dests, d = pred_mu ∨ d = pred_targ := by
  simp [check_correctness, List.all_eq_true, and_comm]

/-- With no cable writing `v`, the propagated sum over `v` is zero. -/
theorem destSum_of_count_zero {V : Type} [DecidableEq V] (edges : List (SCable V × ℚ)) (v : V)
    (h : destCount edges v = 0) : destSum edges v = 0 := by
  unfold destCount at h
  unfold destSum
  rw [List.length_eq_zero.mp h]
  rfl

/-- Characterization of the edge loop from an arbitrary starting
state: each variable's tick grows by the number of cables writing it,
and its value is untouched when no cable writes it, and otherwise
equals the (previous accumulated value if the starting tick was
positive, else nothing) plus the sum of all propagated values for
it. -/
theorem runEdges_char {V : Type} [DecidableEq V] (edges : List (SCable V × ℚ))
    (st : NodeSt V) (v : V) :
    (runEdges st edges).tick v = st.tick v + destCount edges v ∧
    (runEdges st edges).stat v =
      (if destCount edges v = 0 then st.stat v
       else some ((if 0 < st.tick v then (st.stat v).getD 0 else 0) + destSum edges v)) := by
  induction edges generalizing st with
  | nil => simp [runEdges, destCount, destSum]
  | cons e rest ih =>
    by_cases hv : e.1.out_var = v
    · have hcount : destCount (e :: rest) v = destCount rest v + 1 := by
        simp [destCount, List.filter, hv]
      have hsum : destSum (e :: rest) v = e.1.propagate e.2 + destSum rest v := by
        simp [destSum, List.filter, hv]
      have h1 := ih (writeEdge st e.1.out_var (e.1.propagate e.2))
      have hst'tick : (writeEdge st e.1.out_var (e.1.propagate e.2)).tick v = st.tick v + 1 := by
        simp [writeEdge, hv]
      have hst'stat : (writeEdge st e.1.out_var (e.1.propagate e.2)).stat v =
          some (if 0 < st.tick v then (st.stat v).getD 0 + e.1.propagate e.2
            else e.1.propagate e.2) := by
        simp [writeEdge, hv]
      constructor
      · rw [show runEdges st (e :: rest) = runEdges (writeEdge st e.1.out_var
          (e.1.propagate e.2)) rest from rfl, h1.1, hst'tick, hcount]
        omega
      · rw [show runEdges st (e :: rest) = runEdges (writeEdge st e.1.out_var
          (e.1.propagate e.2)) rest from rfl, h1.2, hst'tick, hst'stat, hcount, hsum]
        rw [if_neg (show ¬ (destCount rest v + 1 = 0) from by omega)]
        by_cases hc : destCount rest v = 0
        · rw [if_pos hc, destSum_of_count_zero rest v hc]
          by_cases ht : 0 < st.tick v
          · rw [if_pos ht, if_pos ht]
            congr 1
            ring
          · rw [if_neg ht, if_neg ht]
            congr 1
            ring
        · rw [if_neg hc, if_pos (show 0 < st.tick v + 1 from by omega), Option.getD_some]
          by_cases ht : 0 < st.tick v
          · rw [if_pos ht, if_pos ht]
            congr 1
            ring
          · rw [if_neg ht, if_neg ht]
            congr 1
            ring
    · have hcount : destCount (e :: rest) v = destCount rest v := by
        simp [destCount, List.filter, hv]
      have hsum : destSum (e :: rest) v = destSum rest v := by
        simp [destSum, List.filter, hv]
      have h1 := ih (writeEdge st e.1.out_var (e.1.propagate e.2))
      have hvne : ¬ (v = e.1.out_var) := fun h => hv h.symm
      have hst'tick : (writeEdge st e.1.out_var (e.1.propagate e.2)).tick v = st.tick v := by
        simp [writeEdge, if_neg hvne]
      have hst'stat : (writeEdge st e.1.out_var (e.1.propagate e.2)).stat v = st.stat v := by
        simp [writeEdge, if_neg hvne]
      rw [show runEdges st (e :: rest) = runEdges (writeEdge st e.1.out_var
        (e.1.propagate e.2)) rest from rfl, hcount, hsum]
      exact ⟨by rw [h1.1, hst'tick], by rw [h1.2, hst'tick, hst'stat]⟩

/-- Claim C7: starting a step with all tick counters zero, the first
cable to write a variable assigns its propagated value directly
(overwriting any previous-step value), every subsequent cable writing
the same variable adds to it, each write increments the variable's
tick (so the final tick is the number of writes), and `build_tick` —
run at the end of the step — makes all ticks zero again for the start
of the next step. -/
theorem C7_tick_accumulation {V : Type} [DecidableEq V] (edges : List (SCable V × ℚ))
    (st : NodeSt V) (v : V) (h0 : ∀ x, st.tick x = 0) :
    (runEdges st edges).tick v = destCount edges v ∧
    (runEdges st edges).stat v =
      (if destCount edges v = 0 then st.stat v else some (destSum edges v)) ∧
    (build_tick (runEdges st edges)).tick v = 0 := by
  have h := runEdges_char edges st v
  refine ⟨by rw [h.1, h0, zero_add], ?_, rfl⟩
  rw [h.2, h0 v]
  by_cases hc : destCount edges v = 0
  · rw [if_pos hc, if_pos hc]
  · rw [if_neg hc, if_neg hc, if_neg (by omega)]
    rw [zero_add]

/-- Witness for `C7_tick_accumulation`: two cables with coefficients
`2` and `1` both write variable `0` from source values `3` and `4`;
the first write assigns `6`, the second accumulates to `10`, the tick
reaches `2`, and `build_tick` clears it. -/
theorem C7_witness :
    (runEdges (NodeSt.mk (fun _ => none) (fun _ => 0))
      [(SCable.mk (0:ℕ) 2, 3), (SCable.mk 0 1, 4)]).tick 0 = 2 ∧
    (runEdges (NodeSt.mk (fun _ => none) (fun _ => 0))
      [(SCable.mk (0:ℕ) 2, 3), (SCable.mk 0 1, 4)]).stat 0 = some 10 ∧
    (build_tick (runEdges (NodeSt.mk (fun _ => none) (fun _ => 0))
      [(SCable.mk (0:ℕ) 2, 3), (SCable.mk 0 1, 4)])).tick 0 = 0 := by
  have h := C7_tick_accumulation
    [(SCable.mk (0:ℕ) 2, 3), (SCable.mk 0 1, 4)]
    (NodeSt.mk (fun _ => none) (fun _ => 0)) 0 (fun _ => rfl)
  refine ⟨?_, ?_, h.2.2⟩
  · rw [h.1]
    decide
  · rw [h.2.1]
    norm_num [destCount, destSum, SCable.propagate, List.filter]

/-- Claim C9: in the unclamped step core, a missing prediction or
target value is fatal — the step terminates (`sys.exit(1)`) before any
loss or output is computed, regardless of every other configuration
parameter. -/
theorem C9_missing_input_fatal (fx : ℚ → ℚ) (et : ErrType) (ex_scale : ℚ)
    (Ws Ns bmask Prec : Option ℚ) (pred_mu0 pred_targ0 : Option ℚ)
    (h : pred_mu0 = none ∨ pred_targ0 = none) :
    isFatal (step_core fx et ex_scale Ws Ns bmask Prec pred_mu0 pred_targ0) = true := by
  rcases h with h | h
  · subst h
    cases bmask <;> rfl
  · subst h
    cases bmask <;> cases pred_mu0 <;> cases et <;> rfl

/-- Witness for `C9_missing_input_fatal`: each of the two inputs
missing in turn. -/
theorem C9_witness :
    isFatal (step_core (fun x => x) ErrType.mse 1 none none none none none (some 3)) = true ∧
    isFatal (step_core (fun x => x) ErrType.mse 1 none none none none (some 3) none) = true := by
  constructor
  · exact C9_missing_input_fatal (fun x => x) ErrType.mse 1 none none none none none (some 3)
      (Or.inl rfl)
  · exact C9_missing_input_fatal (fun x => x) ErrType.mse 1 none none none none (some 3) none
      (Or.inr rfl)

/-- Claim C2, amended: what `compute_precision`'s rebuild does
guarantee — for a symmetric covariance the rebuilt matrix is
symmetric, every diagonal entry equals `max(1, Sigma_ii) + eps` and is
at least `1`, and off-diagonal entries are preserved up to the added
epsilon.  Cholesky-decomposability itself is not guaranteed for
arbitrary covariance states (see the counterexample). -/
theorem C2_rebuild_props {n : ℕ} (Sigma : Matrix (Fin n) (Fin n) ℚ) (hs : Sigma.IsSymm) :
    (rebuild_cov Sigma).IsSymm ∧
    (∀ i, 1 ≤ rebuild_cov Sigma i i) ∧
    (∀ i, rebuild_cov Sigma i i = max 1 (Sigma i i) + eps) ∧
    (∀ i j, i ≠ j → rebuild_cov Sigma i j = Sigma i j + eps) := by
  have hdiag : ∀ i, rebuild_cov Sigma i i = max 1 (Sigma i i) + eps := by
    intro i
    simp [rebuild_cov]
  have hoff : ∀ i j, i ≠ j → rebuild_cov Sigma i j = Sigma i j + eps := by
    intro i j hij
    simp [rebuild_cov, hij]
  refine ⟨?_, ?_, hdiag, hoff⟩
  · ext i j
    simp only [Matrix.transpose_apply]
    by_cases hij : i = j
    · subst hij
      rfl
    · rw [hoff j i (fun h => hij h.symm), hoff i j hij]
      have := congrFun (congrFun hs j) i
      simp only [Matrix.transpose_apply] at this
      rw [this]
  · intro i
    rw [hdiag i]
    have h1 : (1:ℚ) ≤ max 1 (Sigma i i) := le_max_left 1 _
    have h2 : (0:ℚ) ≤ eps := by norm_num [eps]
    linarith

/-- Witness for `C2_rebuild_props` at the 1×1 covariance `[[0]]`. -/
theorem C2_rebuild_props_witness :
    (rebuild_cov (!![0] : Matrix (Fin 1) (Fin 1) ℚ)).IsSymm ∧
    1 ≤ rebuild_cov (!![0] : Matrix (Fin 1) (Fin 1) ℚ) 0 0 ∧
    rebuild_cov (!![0] : Matrix (Fin 1) (Fin 1) ℚ) 0 0 = max 1 0 + eps := by
  have h := C2_rebuild_props (!![0] : Matrix (Fin 1) (Fin 1) ℚ)
    (by ext i j; fin_cases i <;> fin_cases j <;> rfl)
  refine ⟨h.1, h.2.1 0, ?_⟩
  have h2 := h.2.2.1 0
  rw [h2]
  norm_num

/-- Claim C2 counterexample.  The covariance state
`Sigma = [[1, 9], [9, 1]]` is symmetric (and reachable: the
constructor draws off-diagonal entries uniformly from
`(-prec_sigma, prec_sigma)`), yet the matrix rebuilt by
`compute_precision` — `[[1 + eps, 9 + eps], [9 + eps, 1 + eps]]` — is
indefinite (the vector `(1, -1)` gives a negative quadratic form), so
no real lower-triangular factorization exists and the Cholesky
decomposition fails: the variance floor and broadcast epsilon do not
make decomposability invariant.  Moreover the `calc_update` delta for
a triangular precision matrix is itself non-symmetric, so
"externally applying the delta" does not even preserve symmetry. -/
theorem C2_cholesky_fails :
    (!![1, 9; 9, 1] : Matrix (Fin 2) (Fin 2) ℚ).IsSymm ∧
    ¬ HasCholesky (rebuild_cov (!![1, 9; 9, 1] : Matrix (Fin 2) (Fin 2) ℚ)) ∧
    ¬ (calc_update (!![1, 1; 0, 1] : Matrix (Fin 2) (Fin 2) ℚ) !![0, 0]).IsSymm := by
  refine ⟨?_, ?_, ?_⟩
  · ext i j
    fin_cases i <;> fin_cases j <;> rfl
  · rintro ⟨R, htri, hEq⟩
    have h00 := congrFun (congrFun hEq 0) 0
    have h01 := congrFun (congrFun hEq 0) 1
    have h11 := congrFun (congrFun hEq 1) 1
    have hR01 : R 0 1 = 0 := htri 0 1 (by norm_num)
    simp only [Matrix.map_apply, Matrix.mul_apply, Matrix.transpose_apply,
      Fin.sum_univ_two, hR01, mul_zero, add_zero, zero_mul] at h00 h01 h11
    rw [show rebuild_cov (!![1, 9; 9, 1] : Matrix (Fin 2) (Fin 2) ℚ) 0 0 = 4001/4000 from by
      norm_num [rebuild_cov, eps]] at h00
    rw [show rebuild_cov (!![1, 9; 9, 1] : Matrix (Fin 2) (Fin 2) ℚ) 0 1 = 36001/4000 from by
      norm_num [rebuild_cov, eps]] at h01
    rw [show rebuild_cov (!![1, 9; 9, 1] : Matrix (Fin 2) (Fin 2) ℚ) 1 1 = 4001/4000 from by
      norm_num [rebuild_cov, eps]] at h11
    have hcast00 : ((4001/4000 : ℚ) : ℝ) = 4001/4000 := by norm_num
    have hcast01 : ((36001/4000 : ℚ) : ℝ) = 36001/4000 := by norm_num
    rw [hcast00] at h00 h11
    rw [hcast01] at h01
    have hR10sq : R 1 0 * R 1 0 ≤ 4001/4000 := by nlinarith [mul_self_nonneg (R 1 1)]
    nlinarith [h00, h01, hR10sq, mul_self_nonneg (R 0 0 * R 1 0 - 36001/4000)]
  · intro h
    have h1 := congrFun (congrFun h 0) 1
    simp only [Matrix.transpose_apply] at h1
    rw [show (calc_update (!![1, 1; 0, 1] : Matrix (Fin 2) (Fin 2) ℚ) !![0, 0]) 1 0 = 0 from by
      norm_num [calc_update, Matrix.mul_apply, Fin.sum_univ_two]] at h1
    rw [show (calc_update (!![1, 1; 0, 1] : Matrix (Fin 2) (Fin 2) ℚ) !![0, 0]) 0 1 = 1/2 from by
      norm_num [calc_update, Matrix.mul_apply, Fin.sum_univ_two]] at h1
    norm_num at h1

end ENode
